import Mathlib

/-!
# Verification of the URL decomposition library

A shallow embedding, over `List Char`, of the two source files of the
library (`src/utils.rs` and `src/lib.rs`), followed by theorems settling
the stated properties of its operations.

Rust string slices (`&str`) are modelled as `List Char`; `Option<&str>`
becomes `Option (List Char)`.  `get_path` and `parse_url` can panic in
the source (an `unwrap` of a possibly-`None` value), so their embeddings
return `Option` one level up: the outer `none` stands for a panic, the
outer `some` for normal return.
-/

/-- Strings are modelled as lists of characters. -/
abbrev Str := List Char

/-- Converts a Lean string literal into the `List Char` model. -/
def strOf (s : String) : Str := s.toList

/-- The literal string "None" used as a sentinel inside `truncate`. -/
def noneLit : Str := strOf "None"

/-- Index of the first occurrence of `sep` in `s` (the index of the first
position at which `sep` is a prefix of the rest), or `none` when `sep`
never occurs.  This is the match position used by Rust's
`str::splitn(2, sep)`. -/
def findSub : Str → Str → Option Nat
  | [], sep => if sep.isPrefixOf [] then some 0 else none
  | a :: rest, sep =>
    if sep.isPrefixOf (a :: rest) then some 0
    else (findSub rest sep).map (· + 1)

/-- Rust's `url.splitn(2, separator).collect::<Vec<_>>()`: the input split
into at most two pieces at the first occurrence of the separator. -/
def splitn2 (s sep : Str) : List Str :=
  match findSub s sep with
  | some i => [s.take i, s.drop (i + sep.length)]
  | none => [s]

/-- Embedding of `utils::truncate` (src/utils.rs): splits on the first
occurrence of the separator, selects the piece at `index` (defaulting to
the literal `"None"` when out of range), and returns it unless it is
empty or equal to the literal `"None"`. -/
def truncate (url sep : Str) (index : Nat) : Option Str :=
  let v : List Str := splitn2 url sep
  let result : Str := (v.get? index).getD noneLit
  if result ≠ [] ∧ result ≠ noneLit then some result else none

/-- Embedding of `get_protocol` (src/lib.rs): the piece before the first
`"://"` when it is exactly one of `"http"`, `"https"`, `"ftp"`. -/
def get_protocol (url : Str) : Option Str :=
  match truncate url (strOf "://") 0 with
  | some protocol_type =>
    if protocol_type = strOf "http" ∨ protocol_type = strOf "https" ∨
        protocol_type = strOf "ftp" then
      some protocol_type
    else
      none
  | none => none

/-- Embedding of `get_host` (src/lib.rs). -/
def get_host (url : Str) : Option Str :=
  match truncate url (strOf "://") 1 with
  | none => truncate url (strOf "/") 0
  | some r => truncate r (strOf "/") 0

/-- Embedding of `get_path` (src/lib.rs).  The source unwraps the result
of `truncate(path, "?", 0)` without checking it, so it panics when that
result is `None`; the outer `none` of the return value models that
panic, the outer `some` a normal return. -/
def get_path (url : Str) : Option (Option Str) :=
  let result := truncate url (strOf "://") 1
  let path : Option Str :=
    match result with
    | none => truncate url (strOf "/") 1
    | some r => truncate r (strOf "/") 1
  match path with
  | some p =>
    match truncate p (strOf "?") 0 with
    | some p2 => some (truncate p2 (strOf "#") 0)
    | none => none
  | none => some none

/-- Embedding of `get_search_string` (src/lib.rs). -/
def get_search_string (url : Str) : Option Str :=
  match truncate url (strOf "?") 1 with
  | some search => truncate search (strOf "#") 0
  | none => none

/-- Embedding of `get_fragment` (src/lib.rs). -/
def get_fragment (url : Str) : Option Str :=
  truncate url (strOf "#") 1

/-- Rust's `str::split` on a single-character separator: every piece
between occurrences of `c`, in order, empty pieces included. -/
def splitChar (c : Char) : Str → List Str
  | [] => [[]]
  | a :: rest =>
    if a = c then [] :: splitChar c rest
    else
      match splitChar c rest with
      | [] => [[a]]
      | h :: t => (a :: h) :: t

/-- Embedding of `get_params` (src/lib.rs): the `&`-separated tokens of
the search string, each split at its first `=`; tokens without an `=`
are dropped. -/
def get_params (url : Str) : List (Str × Str) :=
  match get_search_string url with
  | none => []
  | some search =>
    (splitChar '&' search).filterMap fun p =>
      match splitn2 p (strOf "=") with
      | [k, v] => some (k, v)
      | _ => none

/-- Rust's `str::trim`: leading and trailing whitespace removed. -/
def trim (s : Str) : Str :=
  ((s.dropWhile Char.isWhitespace).reverse.dropWhile Char.isWhitespace).reverse

/-- Embedding of the `URLParts` result record (src/lib.rs). -/
structure URLParts where
  protocol : Option Str
  host : Option Str
  path : Option Str
  search : Option Str
  fragment : Option Str
  params : List (Str × Str)
deriving DecidableEq

/-- Embedding of `parse_url` (src/lib.rs): trims the input once, then
runs every extractor on the trimmed input.  Returns `none` when the
`get_path` component panics (which aborts the whole call). -/
def parse_url (url : Str) : Option URLParts :=
  let url := trim url
  match get_path url with
  | none => none
  | some p =>
    some {
      protocol := get_protocol url
      host := get_host url
      path := p
      search := get_search_string url
      fragment := get_fragment url
      params := get_params url
    }

/-! ## Spec-level definitions

The following definitions restate, in the spec's own words, the selection
step of the splitter and the derived notions the claims speak about; they
are compared with the source-derived definitions above. -/

/-- The piece of the split selected by `side`, as the spec describes it:
side 0 is the piece before the first occurrence of the separator (the
whole input when the separator is absent); side 1 is the piece after the
first occurrence (absent when the separator is absent). -/
def selectedPiece (s sep : Str) (side : Nat) : Option Str :=
  match findSub s sep, side with
  | some i, 0 => some (s.take i)
  | some i, 1 => some (s.drop (i + sep.length))
  | none, 0 => some s
  | _, _ => none

/-- Collapse of a selected piece to "absent": a piece that is empty, or
equal to the literal string "None", becomes absent. -/
def collapse : Option Str → Option Str
  | some q => if q ≠ [] ∧ q ≠ noneLit then some q else none
  | none => none

/-- The substring before the first occurrence of `sep`, or the whole
input when `sep` is absent. -/
def beforeFirst (s sep : Str) : Str :=
  match findSub s sep with
  | some i => s.take i
  | none => s

/-- The part of a query token before its first `=`. -/
def keyOf (t : Str) : Str := t.takeWhile (fun x => x != '=')

/-- The part of a query token after its first `=`. -/
def valOf (t : Str) : Str := (t.dropWhile (fun x => x != '=')).tail

/-- The `&`-separated tokens of the search string of `url` (no tokens
when the search string is absent). -/
def tokensOf (url : Str) : List Str :=
  match get_search_string url with
  | none => []
  | some q => splitChar '&' q

/-! ## Splitter lemmas -/

/-- The source `truncate` computes exactly the spec's selected piece,
collapsed to absent when empty or equal to the literal "None". -/
theorem truncate_eq_collapse (s sep : Str) (i : Nat) :
    truncate s sep i = collapse (selectedPiece s sep i) := by
  unfold truncate splitn2 selectedPiece
  cases h : findSub s sep with
  | some j =>
    match i with
    | 0 => simp [collapse]
    | 1 => simp [collapse]
    | n + 2 => simp [List.get?, collapse, noneLit]
  | none =>
    match i with
    | 0 => simp [collapse]
    | 1 => simp [List.get?, collapse, noneLit]
    | n + 2 => simp [List.get?, collapse, noneLit]

/-- Every piece produced by the two-way split is a contiguous substring
of the input. -/
theorem mem_splitn2_within {s sep t : Str} (h : t ∈ splitn2 s sep) : t <:+: s := by
  unfold splitn2 at h
  cases hf : findSub s sep with
  | some i =>
    rw [hf] at h
    simp only [List.mem_cons, List.not_mem_nil, or_false] at h
    rcases h with h | h
    · exact h ▸ (List.take_prefix i s).isInfix
    · exact h ▸ (List.drop_suffix _ s).isInfix
  | none =>
    rw [hf] at h
    simp only [List.mem_cons, List.not_mem_nil, or_false] at h
    exact h ▸ List.infix_rfl

/-- A present selected piece is one of the split pieces. -/
theorem selectedPiece_mem {s sep : Str} {i : Nat} {q : Str}
    (h : selectedPiece s sep i = some q) : q ∈ splitn2 s sep := by
  unfold selectedPiece at h
  unfold splitn2
  cases hf : findSub s sep with
  | some j =>
    rw [hf] at h
    match i with
    | 0 => simp at h; simp [h]
    | 1 => simp at h; simp [h]
    | n + 2 => simp at h
  | none =>
    rw [hf] at h
    match i with
    | 0 => simp at h; simp [h]
    | 1 => simp at h
    | n + 2 => simp at h

/-- Inversion for `collapse`. -/
theorem collapse_some {o : Option Str} {r : Str} (h : collapse o = some r) :
    o = some r ∧ r ≠ [] ∧ r ≠ noneLit := by
  match o with
  | none => simp [collapse] at h
  | some q =>
    simp only [collapse] at h
    by_cases hc : q ≠ [] ∧ q ≠ noneLit
    · rw [if_pos hc] at h
      have hx : q = r := by injection h
      subst hx
      exact ⟨rfl, hc⟩
    · rw [if_neg hc] at h
      exact absurd h (by simp)

/-- A present result of `truncate` is one of the split pieces, and is
neither empty nor the literal "None". -/
theorem truncate_some {s sep : Str} {i : Nat} {r : Str}
    (h : truncate s sep i = some r) :
    r ∈ splitn2 s sep ∧ r ≠ [] ∧ r ≠ noneLit := by
  rw [truncate_eq_collapse] at h
  obtain ⟨ho, hne⟩ := collapse_some h
  exact ⟨selectedPiece_mem ho, hne⟩

/-- A present result of `truncate` is a contiguous substring of the
input. -/
theorem truncate_some_within {s sep : Str} {i : Nat} {r : Str}
    (h : truncate s sep i = some r) : r <:+: s :=
  mem_splitn2_within (truncate_some h).1

/-- Extending a contiguous substring relation by one leading element. -/
theorem within_cons {l₁ l₂ : Str} {a : Char} (h : l₁ <:+: l₂) :
    l₁ <:+: a :: l₂ := by
  obtain ⟨u, v, huv⟩ := h
  exact ⟨a :: u, v, by rw [← huv]; rfl⟩

/-- Structure of `splitChar`: the result is non-empty, its head is a
prefix of the input, every element is a contiguous substring of the
input, and no element contains the separator character. -/
theorem splitChar_spec (c : Char) (s : Str) :
    ∃ hd tl, splitChar c s = hd :: tl ∧ hd <+: s ∧ c ∉ hd ∧
      ∀ u ∈ tl, u <:+: s ∧ c ∉ u := by
  induction s with
  | nil => exact ⟨[], [], rfl, List.prefix_rfl, by simp, by simp⟩
  | cons a rest ih =>
    obtain ⟨hd, tl, he, hp, hc, ht⟩ := ih
    by_cases hac : a = c
    · refine ⟨[], hd :: tl, ?_, List.nil_prefix, by simp, ?_⟩
      · rw [splitChar, if_pos hac, he]
      · intro u hu
        rcases List.mem_cons.mp hu with rfl | hu
        · exact ⟨within_cons hp.isInfix, hc⟩
        · exact ⟨within_cons (ht u hu).1, (ht u hu).2⟩
    · refine ⟨a :: hd, tl, ?_, ?_, ?_, ?_⟩
      · rw [splitChar, if_neg hac, he]
      · obtain ⟨w, hw⟩ := hp
        exact ⟨w, by rw [← hw]; rfl⟩
      · intro hmem
        rcases List.mem_cons.mp hmem with rfl | hmem
        · exact hac rfl
        · exact hc hmem
      · intro u hu
        exact ⟨within_cons (ht u hu).1, (ht u hu).2⟩

/-- Every piece produced by `splitChar` is a contiguous substring of the
input and does not contain the separator character. -/
theorem splitChar_mem {c : Char} {s u : Str} (h : u ∈ splitChar c s) :
    u <:+: s ∧ c ∉ u := by
  obtain ⟨hd, tl, he, hp, hc, ht⟩ := splitChar_spec c s
  rw [he] at h
  rcases List.mem_cons.mp h with rfl | h
  · exact ⟨hp.isInfix, hc⟩
  · exact ht u h

/-! ## Single-character occurrence lemmas -/

/-- When a single-character separator is not found, it does not occur in
the input. -/
theorem findSub_single_none {c : Char} {t : Str} (h : findSub t [c] = none) :
    c ∉ t := by
  induction t with
  | nil => simp
  | cons a rest ih =>
    rw [findSub] at h
    simp only [List.isPrefixOf, Bool.and_true] at h
    by_cases hca : (c == a) = true
    · rw [if_pos hca] at h
      exact absurd h (by simp)
    · rw [if_neg hca] at h
      have hr : findSub rest [c] = none := by
        cases hf : findSub rest [c] with
        | none => rfl
        | some j => rw [hf] at h; exact absurd h (by simp)
      intro hmem
      rcases List.mem_cons.mp hmem with rfl | hmem
      · exact hca (beq_self_eq_true c)
      · exact ih hr hmem

/-- When a single-character separator is found at index `i`, the piece
before it is the longest prefix free of the character, and the piece
after it is the rest past the first occurrence. -/
theorem findSub_single_some {c : Char} {t : Str} {i : Nat}
    (h : findSub t [c] = some i) :
    t.take i = t.takeWhile (fun x => x != c) ∧
    t.drop (i + 1) = (t.dropWhile (fun x => x != c)).tail ∧ c ∈ t := by
  induction t generalizing i with
  | nil =>
    rw [findSub] at h
    simp [List.isPrefixOf] at h
  | cons a rest ih =>
    rw [findSub] at h
    simp only [List.isPrefixOf, Bool.and_true] at h
    by_cases hca : (c == a) = true
    · rw [if_pos hca] at h
      have hi : i = 0 := by injection h with h; exact h.symm
      subst hi
      have hce : c = a := eq_of_beq hca
      subst hce
      refine ⟨?_, ?_, ?_⟩
      · simp [List.takeWhile_cons]
      · simp [List.dropWhile_cons]
      · exact List.mem_cons_self c rest
    · rw [if_neg hca] at h
      obtain ⟨j, hj, hij⟩ := Option.map_eq_some'.mp h
      subst hij
      obtain ⟨h1, h2, h3⟩ := ih hj
      have hne : c ≠ a := fun hh => hca (beq_iff_eq.mpr hh)
      have hac : (a != c) = true := bne_iff_ne.mpr (Ne.symm hne)
      refine ⟨?_, ?_, List.mem_cons.mpr (Or.inr h3)⟩
      · simp [List.takeWhile_cons, hac, h1]
      · simp [List.dropWhile_cons, hac, h2]

/-- Splitting a token that contains `=` at its first `=`. -/
theorem splitn2_eq_token_mem {t : Str} (h : '=' ∈ t) :
    splitn2 t (strOf "=") = [keyOf t, valOf t] := by
  cases hf : findSub t (strOf "=") with
  | none =>
    have hf' : findSub t ['='] = none := hf
    exact absurd h (findSub_single_none hf')
  | some i =>
    unfold splitn2
    rw [hf]
    have hf' : findSub t ['='] = some i := hf
    obtain ⟨h1, h2, _⟩ := findSub_single_some hf'
    have hlen : (strOf "=").length = 1 := rfl
    rw [hlen, keyOf, valOf, ← h1, ← h2]

/-- Splitting a token free of `=` leaves it whole. -/
theorem splitn2_eq_token_not_mem {t : Str} (h : '=' ∉ t) :
    splitn2 t (strOf "=") = [t] := by
  cases hf : findSub t (strOf "=") with
  | some i =>
    have hf' : findSub t ['='] = some i := hf
    obtain ⟨_, _, hmem⟩ := findSub_single_some hf'
    exact absurd hmem h
  | none =>
    unfold splitn2
    rw [hf]

/-- A `filterMap` whose function acts as filter-then-map is the
composition of the filter and the map. -/
theorem filterMap_eq_map_filter {A B : Type} (f : A → Option B) (p : A → Bool)
    (g : A → B) (hf : ∀ a, f a = if p a then some (g a) else none) (l : List A) :
    l.filterMap f = (l.filter p).map g := by
  induction l with
  | nil => rfl
  | cons a l ih =>
    rw [List.filterMap_cons, List.filter_cons, hf a]
    by_cases hp : p a = true
    · rw [if_pos hp, if_pos hp, List.map_cons, ih]
    · rw [if_neg hp, if_neg hp, ih]

/-- `get_params` equals the spec-level derivation: the tokens of the
search string containing an `=`, in order, split at their first `=`. -/
theorem get_params_eq (url : Str) :
    get_params url =
      (((tokensOf url).filter fun t => decide ('=' ∈ t)).map
        fun t => (keyOf t, valOf t)) := by
  cases hs : get_search_string url with
  | none => unfold get_params tokensOf; rw [hs]; rfl
  | some q =>
    unfold get_params tokensOf
    rw [hs]
    refine filterMap_eq_map_filter _ _ _ (fun t => ?_) _
    by_cases h : '=' ∈ t
    · rw [if_pos (by simpa using h)]
      show (match splitn2 t (strOf "=") with
        | [k, v] => some ((k : Str), (v : Str))
        | _ => none) = _
      rw [splitn2_eq_token_mem h]
    · rw [if_neg (by simpa using h)]
      show (match splitn2 t (strOf "=") with
        | [k, v] => some ((k : Str), (v : Str))
        | _ => none) = _
      rw [splitn2_eq_token_not_mem h]

/-! ## Shape lemmas for the extractors -/

/-- A present protocol is the piece before the first scheme separator,
as returned by `truncate`. -/
theorem get_protocol_some {u p : Str} (h : get_protocol u = some p) :
    truncate u (strOf "://") 0 = some p := by
  unfold get_protocol at h
  cases ht : truncate u (strOf "://") 0 with
  | none => rw [ht] at h; exact absurd h (by simp)
  | some q =>
    rw [ht] at h
    dsimp only at h
    by_cases hq : q = strOf "http" ∨ q = strOf "https" ∨ q = strOf "ftp"
    · rw [if_pos hq] at h
      exact h
    · rw [if_neg hq] at h
      exact absurd h (by simp)

/-- A present host comes from a `truncate` on `"/"` applied to a
contiguous substring of the input. -/
theorem get_host_shape {u r : Str} (h : get_host u = some r) :
    ∃ x, x <:+: u ∧ truncate x (strOf "/") 0 = some r := by
  unfold get_host at h
  cases ht : truncate u (strOf "://") 1 with
  | none => rw [ht] at h; exact ⟨u, List.infix_rfl, h⟩
  | some w => rw [ht] at h; exact ⟨w, truncate_some_within ht, h⟩

/-- A present search string comes from a `truncate` on `"#"` applied to
a contiguous substring of the input. -/
theorem get_search_shape {u q : Str} (h : get_search_string u = some q) :
    ∃ x, x <:+: u ∧ truncate x (strOf "#") 0 = some q := by
  unfold get_search_string at h
  cases ht : truncate u (strOf "?") 1 with
  | none => rw [ht] at h; exact absurd h (by simp)
  | some w => rw [ht] at h; exact ⟨w, truncate_some_within ht, h⟩

/-- A present path comes from a `truncate` on `"#"` applied to a
contiguous substring of the input. -/
theorem get_path_shape {u p : Str} (h : get_path u = some (some p)) :
    ∃ x, x <:+: u ∧ truncate x (strOf "#") 0 = some p := by
  unfold get_path at h
  dsimp only at h
  cases ht : truncate u (strOf "://") 1 with
  | none =>
    rw [ht] at h
    dsimp only at h
    cases hp1 : truncate u (strOf "/") 1 with
    | none => rw [hp1] at h; exact absurd h (by simp)
    | some p1 =>
      rw [hp1] at h
      dsimp only at h
      cases hq : truncate p1 (strOf "?") 0 with
      | none => rw [hq] at h; exact absurd h (by simp)
      | some p2 =>
        rw [hq] at h
        dsimp only at h
        injection h with h
        exact ⟨p2, (truncate_some_within hq).trans (truncate_some_within hp1), h⟩
  | some r =>
    rw [ht] at h
    dsimp only at h
    cases hp1 : truncate r (strOf "/") 1 with
    | none => rw [hp1] at h; exact absurd h (by simp)
    | some p1 =>
      rw [hp1] at h
      dsimp only at h
      cases hq : truncate p1 (strOf "?") 0 with
      | none => rw [hq] at h; exact absurd h (by simp)
      | some p2 =>
        rw [hq] at h
        dsimp only at h
        injection h with h
        exact ⟨p2, ((truncate_some_within hq).trans (truncate_some_within hp1)).trans
          (truncate_some_within ht), h⟩

/-- Inversion of a successful `parse_url`: every field is the
corresponding extractor applied to the trimmed input. -/
theorem parse_url_some {s : Str} {parts : URLParts} (h : parse_url s = some parts) :
    parts.protocol = get_protocol (trim s) ∧ parts.host = get_host (trim s) ∧
    get_path (trim s) = some parts.path ∧
    parts.search = get_search_string (trim s) ∧
    parts.fragment = get_fragment (trim s) ∧
    parts.params = get_params (trim s) := by
  unfold parse_url at h
  dsimp only at h
  cases hp : get_path (trim s) with
  | none => rw [hp] at h; exact absurd h (by simp)
  | some p =>
    rw [hp] at h
    dsimp only at h
    injection h with h
    subst h
    exact ⟨rfl, rfl, rfl, rfl, rfl, rfl⟩

/-- Side 0 of the spec's selection is the piece before the first
occurrence (the whole input when the separator is absent). -/
theorem selectedPiece_zero (s sep : Str) :
    selectedPiece s sep 0 = some (beforeFirst s sep) := by
  unfold selectedPiece beforeFirst
  cases hf : findSub s sep with
  | some i => rfl
  | none => rfl

/-- `get_protocol` in closed form: the piece before the first `"://"`
(the whole input when absent) exactly when it is a recognized scheme. -/
theorem get_protocol_eq (s : Str) :
    get_protocol s =
      (if beforeFirst s (strOf "://") = strOf "http" ∨
          beforeFirst s (strOf "://") = strOf "https" ∨
          beforeFirst s (strOf "://") = strOf "ftp"
        then some (beforeFirst s (strOf "://")) else none) := by
  unfold get_protocol
  rw [truncate_eq_collapse, selectedPiece_zero]
  simp only [collapse]
  by_cases hq : beforeFirst s (strOf "://") = strOf "http" ∨
      beforeFirst s (strOf "://") = strOf "https" ∨
      beforeFirst s (strOf "://") = strOf "ftp"
  · have hne : beforeFirst s (strOf "://") ≠ [] ∧
        beforeFirst s (strOf "://") ≠ noneLit := by
      rcases hq with h | h | h <;> rw [h] <;> exact ⟨by decide, by decide⟩
    rw [if_pos hne]
  · rw [if_neg hq]
    by_cases hne : beforeFirst s (strOf "://") ≠ [] ∧
        beforeFirst s (strOf "://") ≠ noneLit
    · rw [if_pos hne]
      dsimp only
      rw [if_neg hq]
    · rw [if_neg hne]

/-- Inversion of a present parameter pair: it comes from a token of the
search string containing an `=`, split at its first `=`. -/
theorem get_params_mem {u k v : Str} (h : (k, v) ∈ get_params u) :
    ∃ t q, get_search_string u = some q ∧ t ∈ splitChar '&' q ∧
      k = keyOf t ∧ v = valOf t ∧ '=' ∈ t := by
  rw [get_params_eq] at h
  obtain ⟨t, ht, hkv⟩ := List.mem_map.mp h
  obtain ⟨htk, heq⟩ := List.mem_filter.mp ht
  simp only [Prod.mk.injEq] at hkv
  cases hs : get_search_string u with
  | none =>
    unfold tokensOf at htk
    rw [hs] at htk
    exact absurd htk (by simp)
  | some q =>
    unfold tokensOf at htk
    rw [hs] at htk
    exact ⟨t, q, rfl, htk, hkv.1.symm, hkv.2.symm, of_decide_eq_true heq⟩

/-! ## Claim theorems -/

/-- C1: the claim says every public operation is total and in particular
`get_path` never panics, including on inputs whose path portion becomes
empty after stripping from the first `?`.  The code violates this: on
the input "host/?query" the piece after the first "/" is "?query", the
`truncate` on `?` side 0 yields `None`, and the source then unwraps that
`None`, panicking.  This theorem evaluates the embedding at that input:
the outer `none` is the panic branch, and it propagates to `parse_url`. -/
theorem get_path_panics_on_empty_stripped_path :
    get_path (strOf "host/?query") = none ∧
    parse_url (strOf "host/?query") = none := by decide

/-- C2 counterexample: the claim says every non-empty selected piece,
including the literal string "None", is returned by `truncate`.  On the
input "None" with separator "?" and side 0, the selected piece is the
non-empty string "None", yet `truncate` returns absent. -/
theorem truncate_literal_none_piece_cex :
    selectedPiece (strOf "None") (strOf "?") 0 = some noneLit ∧
    noneLit ≠ [] ∧
    truncate (strOf "None") (strOf "?") 0 = none := by decide

/-- C2 amended: `truncate` splits on the first occurrence of the
separator and returns the piece selected by the side, as a present
value unless that piece is the empty string or the literal string
"None", in which case the result is absent. -/
theorem truncate_amended_selection (s sep : Str) (i : Nat) :
    truncate s sep i = collapse (selectedPiece s sep i) :=
  truncate_eq_collapse s sep i

/-- C3 counterexample: the claim says the protocol is absent whenever no
"://" occurs, in particular on the bare input "http".  The code returns
the whole input as side 0 when the separator is absent, and "http" is a
recognized scheme, so `get_protocol "http"` is present. -/
theorem protocol_without_separator_cex :
    findSub (strOf "http") (strOf "://") = none ∧
    get_protocol (strOf "http") = some (strOf "http") := by decide

/-- C3 amended: the protocol is absent whenever the part before the
first "://" — which is the whole input when "://" is absent — is not
one of "http", "https", "ftp"; an input without "://" whose whole text
is a recognized scheme yields that scheme as present. -/
theorem protocol_absent_of_unrecognized (s : Str)
    (h1 : beforeFirst s (strOf "://") ≠ strOf "http")
    (h2 : beforeFirst s (strOf "://") ≠ strOf "https")
    (h3 : beforeFirst s (strOf "://") ≠ strOf "ftp") :
    get_protocol s = none := by
  rw [get_protocol_eq]
  rw [if_neg (by tauto)]

theorem protocol_absent_of_unrecognized_witness :
    (beforeFirst (strOf "httpx") (strOf "://") ≠ strOf "http" ∧
     beforeFirst (strOf "httpx") (strOf "://") ≠ strOf "https" ∧
     beforeFirst (strOf "httpx") (strOf "://") ≠ strOf "ftp") ∧
    get_protocol (strOf "httpx") = none :=
  ⟨⟨by decide, by decide, by decide⟩,
    protocol_absent_of_unrecognized _ (by decide) (by decide) (by decide)⟩

/-- C4 counterexample: the claim says the host is absent when the part
after "://" is empty, as for "https://".  The code instead falls back to
splitting the whole input on "/" and returns "https:" as the host. -/
theorem host_empty_after_scheme_cex :
    findSub (strOf "https://") (strOf "://") = some 5 ∧
    (strOf "https://").drop 8 = [] ∧
    get_host (strOf "https://") = some (strOf "https:") := by decide

/-- C4 amended: when "://" is present and the part after it is non-empty
and not the literal "None", the host is side 0 of splitting that part on
"/" (collapsed to absent when that piece is empty or "None"); when the
part after "://" is empty (or the literal "None"), `get_host` instead
splits the whole input on "/" and takes side 0, so "https://" yields
host "https:", not absent. -/
theorem host_after_scheme_amended (s : Str) (i : Nat)
    (h : findSub s (strOf "://") = some i) :
    (s.drop (i + 3) ≠ [] ∧ s.drop (i + 3) ≠ noneLit →
      get_host s = collapse (selectedPiece (s.drop (i + 3)) (strOf "/") 0)) ∧
    ((s.drop (i + 3) = [] ∨ s.drop (i + 3) = noneLit) →
      get_host s = collapse (selectedPiece s (strOf "/") 0)) := by
  have hsel : selectedPiece s (strOf "://") 1 = some (s.drop (i + 3)) := by
    unfold selectedPiece
    rw [h]
    rfl
  have htr : truncate s (strOf "://") 1 = collapse (some (s.drop (i + 3))) := by
    rw [truncate_eq_collapse, hsel]
  constructor
  · intro hc
    have hcol : collapse (some (s.drop (i + 3))) = some (s.drop (i + 3)) := by
      simp only [collapse]
      rw [if_pos hc]
    unfold get_host
    rw [htr, hcol]
    exact truncate_eq_collapse (s.drop (i + 3)) (strOf "/") 0
  · intro hc
    have hcol : collapse (some (s.drop (i + 3))) = none := by
      simp only [collapse]
      rcases hc with hc | hc
      · exact if_neg fun hand => hand.1 hc
      · exact if_neg fun hand => hand.2 hc
    unfold get_host
    rw [htr, hcol]
    exact truncate_eq_collapse s (strOf "/") 0

theorem host_after_scheme_amended_witness :
    findSub (strOf "https://") (strOf "://") = some 5 ∧
    (((strOf "https://").drop (5 + 3) ≠ [] ∧
        (strOf "https://").drop (5 + 3) ≠ noneLit →
      get_host (strOf "https://") =
        collapse (selectedPiece ((strOf "https://").drop (5 + 3)) (strOf "/") 0)) ∧
     (((strOf "https://").drop (5 + 3) = [] ∨
        (strOf "https://").drop (5 + 3) = noneLit) →
      get_host (strOf "https://") =
        collapse (selectedPiece (strOf "https://") (strOf "/") 0))) :=
  ⟨by decide, host_after_scheme_amended (strOf "https://") 5 (by decide)⟩

/-- C5: `get_protocol` is present exactly when the substring before the
first "://" (the whole input when "://" is absent) is one of "http",
"https", "ftp", and in that case the returned value is that substring. -/
theorem protocol_present_iff_recognized (s : Str) :
    get_protocol s =
      (if beforeFirst s (strOf "://") = strOf "http" ∨
          beforeFirst s (strOf "://") = strOf "https" ∨
          beforeFirst s (strOf "://") = strOf "ftp"
        then some (beforeFirst s (strOf "://")) else none) :=
  get_protocol_eq s

/-- C6 counterexample: the claim says each standalone function applied
to the same input agrees with the corresponding field of `parse_url`.
`parse_url` trims the input first while the standalone functions do not,
so on "a#b " (trailing space) `get_fragment` returns "b " while
`parse_url`'s fragment field is "b". -/
theorem standalone_vs_parse_whitespace_cex :
    get_fragment (strOf "a#b ") = some (strOf "b ") ∧
    (parse_url (strOf "a#b ")).map URLParts.fragment = some (some (strOf "b")) ∧
    some (strOf "b ") ≠ some (strOf "b") := by decide

/-- C6 amended: whenever `parse_url` returns a result (that is, its
`get_path` component does not panic), every field of that result agrees
byte-for-byte with the corresponding standalone function applied to the
whitespace-trimmed input; on raw inputs with surrounding whitespace the
standalone functions may differ from `parse_url`, which trims first. -/
theorem standalone_matches_parse_on_trimmed (s : Str) (parts : URLParts)
    (h : parse_url s = some parts) :
    parts.protocol = get_protocol (trim s) ∧ parts.host = get_host (trim s) ∧
    get_path (trim s) = some parts.path ∧
    parts.search = get_search_string (trim s) ∧
    parts.fragment = get_fragment (trim s) ∧
    parts.params = get_params (trim s) :=
  parse_url_some h

theorem standalone_matches_parse_on_trimmed_witness :
    parse_url (strOf "x") = some ⟨none, some (strOf "x"), none, none, none, []⟩ ∧
    ((⟨none, some (strOf "x"), none, none, none, []⟩ : URLParts).protocol =
        get_protocol (trim (strOf "x")) ∧
      (⟨none, some (strOf "x"), none, none, none, []⟩ : URLParts).host =
        get_host (trim (strOf "x")) ∧
      get_path (trim (strOf "x")) =
        some (⟨none, some (strOf "x"), none, none, none, []⟩ : URLParts).path ∧
      (⟨none, some (strOf "x"), none, none, none, []⟩ : URLParts).search =
        get_search_string (trim (strOf "x")) ∧
      (⟨none, some (strOf "x"), none, none, none, []⟩ : URLParts).fragment =
        get_fragment (trim (strOf "x")) ∧
      (⟨none, some (strOf "x"), none, none, none, []⟩ : URLParts).params =
        get_params (trim (strOf "x"))) :=
  ⟨by decide, standalone_matches_parse_on_trimmed (strOf "x") _ (by decide)⟩

/-- C7: `get_params` keeps exactly the `&`-separated tokens of the
search string (no tokens when the search string is absent) that contain
an `=`, in left-to-right order, each contributing the pair obtained by
splitting it at its first `=`; hence the length of the params sequence
is the number of such tokens. -/
theorem params_length_and_pairs (url : Str) :
    get_params url =
      (((tokensOf url).filter fun t => decide ('=' ∈ t)).map
        fun t => (keyOf t, valOf t)) ∧
    (get_params url).length =
      ((tokensOf url).filter fun t => decide ('=' ∈ t)).length := by
  refine ⟨get_params_eq url, ?_⟩
  rw [get_params_eq url, List.length_map]

/-- C8: every present optional field of a `parse_url` result, and both
components of every params pair, is a contiguous substring of the
whitespace-trimmed input; in particular leading or trailing whitespace
of the raw input never appears in any output field.  (`parse_url` is a
function of its input, so determinism is definitional.) -/
theorem parse_fields_within_trimmed_input (s : Str) (parts : URLParts)
    (hp : parse_url s = some parts) :
    (∀ p, parts.protocol = some p → p <:+: trim s) ∧
    (∀ r, parts.host = some r → r <:+: trim s) ∧
    (∀ p, parts.path = some p → p <:+: trim s) ∧
    (∀ q, parts.search = some q → q <:+: trim s) ∧
    (∀ f, parts.fragment = some f → f <:+: trim s) ∧
    (∀ k v, (k, v) ∈ parts.params → k <:+: trim s ∧ v <:+: trim s) := by
  obtain ⟨h1, h2, h3, h4, h5, h6⟩ := parse_url_some hp
  refine ⟨?_, ?_, ?_, ?_, ?_, ?_⟩
  · intro p hc
    rw [h1] at hc
    exact truncate_some_within (get_protocol_some hc)
  · intro r hc
    rw [h2] at hc
    obtain ⟨x, hxu, hx⟩ := get_host_shape hc
    exact (truncate_some_within hx).trans hxu
  · intro p hc
    rw [hc] at h3
    obtain ⟨x, hxu, hx⟩ := get_path_shape h3
    exact (truncate_some_within hx).trans hxu
  · intro q hc
    rw [h4] at hc
    obtain ⟨x, hxu, hx⟩ := get_search_shape hc
    exact (truncate_some_within hx).trans hxu
  · intro f hc
    rw [h5] at hc
    exact truncate_some_within hc
  · intro k v hc
    rw [h6] at hc
    obtain ⟨t, q, hs, htk, hk, hv, hmem⟩ := get_params_mem hc
    have hq : q <:+: trim s := by
      obtain ⟨x, hxu, hx⟩ := get_search_shape hs
      exact (truncate_some_within hx).trans hxu
    have ht : t <:+: trim s := ((splitChar_mem htk).1).trans hq
    subst hk
    subst hv
    constructor
    · exact (( List.takeWhile_prefix _).isInfix).trans ht
    · exact (((List.tail_suffix _).trans (List.dropWhile_suffix _)).isInfix).trans ht

theorem parse_fields_within_trimmed_input_witness :
    parse_url (strOf "a/b") =
      some ⟨none, some (strOf "a"), some (strOf "b"), none, none, []⟩ ∧
    ((∀ p, (⟨none, some (strOf "a"), some (strOf "b"), none, none, []⟩ :
        URLParts).protocol = some p → p <:+: trim (strOf "a/b")) ∧
     (∀ r, (⟨none, some (strOf "a"), some (strOf "b"), none, none, []⟩ :
        URLParts).host = some r → r <:+: trim (strOf "a/b")) ∧
     (∀ p, (⟨none, some (strOf "a"), some (strOf "b"), none, none, []⟩ :
        URLParts).path = some p → p <:+: trim (strOf "a/b")) ∧
     (∀ q, (⟨none, some (strOf "a"), some (strOf "b"), none, none, []⟩ :
        URLParts).search = some q → q <:+: trim (strOf "a/b")) ∧
     (∀ f, (⟨none, some (strOf "a"), some (strOf "b"), none, none, []⟩ :
        URLParts).fragment = some f → f <:+: trim (strOf "a/b")) ∧
     (∀ k v, (k, v) ∈ (⟨none, some (strOf "a"), some (strOf "b"), none, none, []⟩ :
        URLParts).params → k <:+: trim (strOf "a/b") ∧ v <:+: trim (strOf "a/b"))) :=
  ⟨by decide, parse_fields_within_trimmed_input (strOf "a/b") _ (by decide)⟩

/-- C9: for every input string, separator and side, `truncate` never
returns a present value equal to the literal string "None" (the source
filters it out); and consequently, whenever `parse_url` returns a
result, no optional field of that result is ever the string "None". -/
theorem no_field_equals_literal_none (s sep : Str) (i : Nat) (parts : URLParts) :
    truncate s sep i ≠ some noneLit ∧
    (parse_url s = some parts →
      parts.protocol ≠ some noneLit ∧ parts.host ≠ some noneLit ∧
      parts.path ≠ some noneLit ∧ parts.search ≠ some noneLit ∧
      parts.fragment ≠ some noneLit) := by
  constructor
  · intro hc
    exact (truncate_some hc).2.2 rfl
  intro hp
  obtain ⟨h1, h2, h3, h4, h5, h6⟩ := parse_url_some hp
  refine ⟨?_, ?_, ?_, ?_, ?_⟩
  · intro hc
    rw [h1] at hc
    exact (truncate_some (get_protocol_some hc)).2.2 rfl
  · intro hc
    rw [h2] at hc
    obtain ⟨x, _, hx⟩ := get_host_shape hc
    exact (truncate_some hx).2.2 rfl
  · intro hc
    rw [hc] at h3
    obtain ⟨x, _, hx⟩ := get_path_shape h3
    exact (truncate_some hx).2.2 rfl
  · intro hc
    rw [h4] at hc
    obtain ⟨x, _, hx⟩ := get_search_shape hc
    exact (truncate_some hx).2.2 rfl
  · intro hc
    rw [h5] at hc
    exact (truncate_some hc).2.2 rfl

theorem no_field_equals_literal_none_witness :
    parse_url (strOf "a#None") =
      some ⟨none, some (strOf "a#None"), none, none, none, []⟩ ∧
    truncate (strOf "a#None") (strOf "#") 1 ≠ some noneLit ∧
    ((⟨none, some (strOf "a#None"), none, none, none, []⟩ : URLParts).protocol ≠
        some noneLit ∧
     (⟨none, some (strOf "a#None"), none, none, none, []⟩ : URLParts).host ≠
        some noneLit ∧
     (⟨none, some (strOf "a#None"), none, none, none, []⟩ : URLParts).path ≠
        some noneLit ∧
     (⟨none, some (strOf "a#None"), none, none, none, []⟩ : URLParts).search ≠
        some noneLit ∧
     (⟨none, some (strOf "a#None"), none, none, none, []⟩ : URLParts).fragment ≠
        some noneLit) :=
  ⟨by decide,
   (no_field_equals_literal_none (strOf "a#None") (strOf "#") 1
     ⟨none, some (strOf "a#None"), none, none, none, []⟩).1,
   (no_field_equals_literal_none (strOf "a#None") (strOf "#") 1
     ⟨none, some (strOf "a#None"), none, none, none, []⟩).2 (by decide)⟩

/-- C10: in every pair returned by `get_params`, the key contains no `=`
character and neither the key nor the value contains an `&` character. -/
theorem params_components_separator_free (u k v : Str)
    (h : (k, v) ∈ get_params u) :
    '=' ∉ k ∧ '&' ∉ k ∧ '&' ∉ v := by
  obtain ⟨t, q, hs, htk, hk, hv, hmem⟩ := get_params_mem h
  have hamp : '&' ∉ t := (splitChar_mem htk).2
  subst hk
  subst hv
  refine ⟨?_, ?_, ?_⟩
  · intro hc
    exact absurd (List.mem_takeWhile_imp hc) (by simp)
  · intro hc
    exact hamp (( List.takeWhile_prefix _).subset hc)
  · intro hc
    exact hamp ((List.dropWhile_suffix _).subset ((List.tail_suffix _).subset hc))

theorem params_components_separator_free_witness :
    (strOf "a", strOf "b") ∈ get_params (strOf "?a=b") ∧
    ('=' ∉ strOf "a" ∧ '&' ∉ strOf "a" ∧ '&' ∉ strOf "b") :=
  ⟨by decide, params_components_separator_free (strOf "?a=b") _ _ (by decide)⟩
